import Mathlib

/-!
# mlpack: `data::Binarize` and the `HoeffdingForest` coordinator

Shallow embedding of `src/mlpack/core/data/binarize.hpp` (four overloads of
`Binarize`) and of the interface declared in
`src/mlpack/methods/hoeffding_trees/hoeffding_forest.hpp`.

Conventions.

* `arma::Mat<T>` is a record of `n_rows`, `n_cols` and the column-major element
  buffer `mem`, as in Armadillo.  Element access `M(r, c)` is Armadillo's
  bounds-checked `operator()`: it raises an error when `r >= n_rows` or
  `c >= n_cols`, and otherwise denotes `mem[r + c * n_rows]`.
* The element type `T` is a type `α` carrying `0` and `1`.  The threshold is a
  `const double`; `δ` is the ordered type of the values of `double`.  In the
  comparison `input(a, b) > threshold` C++ converts the element to `double`
  first: the conversion is the field `conv` of a `ToDouble α δ`, and the
  comparison is made in `δ`.
* A C `for (size_t i = 0; i < n; ++i)` loop is `forLoop body n`, which runs the
  body for `i = 0, 1, ..., n - 1` in this order and stops at the first error.
-/

namespace mlpack

/-! ## Armadillo matrices with checked element access -/

/-- Dense matrix `arma::Mat<T>`: dimensions and column-major storage. -/
structure Mat (α : Type) where
  n_rows : Nat
  n_cols : Nat
  mem : List α
  size_eq : mem.length = n_rows * n_cols
deriving DecidableEq

/-- Error raised by the bounds check of `Mat::operator()(row, col)`; it records
the indices that were out of range. -/
structure IndexError where
  row : Nat
  col : Nat
deriving DecidableEq, Repr

/-- Read access `M(r, c)` with Armadillo's bounds check. -/
def Mat.at {α : Type} (m : Mat α) (r c : Nat) : Except IndexError α :=
  if h : r < m.n_rows ∧ c < m.n_cols then
    .ok (m.mem.get ⟨r + c * m.n_rows, by
      rw [m.size_eq, Nat.mul_comm m.n_rows m.n_cols]
      exact Nat.lt_of_lt_of_le (by rw [Nat.succ_mul]; omega)
        (Nat.mul_le_mul_right m.n_rows (Nat.succ_le_of_lt h.2))⟩)
  else
    .error ⟨r, c⟩

/-- Write access `M(r, c) = v` with Armadillo's bounds check. -/
def Mat.set {α : Type} (m : Mat α) (r c : Nat) (v : α) : Except IndexError (Mat α) :=
  if r < m.n_rows ∧ c < m.n_cols then
    .ok { n_rows := m.n_rows
          n_cols := m.n_cols
          mem := m.mem.set (r + c * m.n_rows) v
          size_eq := by rw [List.length_set]; exact m.size_eq }
  else
    .error ⟨r, c⟩

/-- Loop `for (size_t i = 0; i < n; ++i) body(i)` threading the state `s`; an
error raised by the body ends the loop. -/
def forLoop {σ ε : Type} (body : σ → Nat → Except ε σ) : Nat → σ → Except ε σ
  | 0, s => .ok s
  | n + 1, s =>
    match forLoop body n s with
    | .error e => .error e
    | .ok s' => body s' n

/-! ## `Binarize` -/

/-- Conversion of a matrix element of type `T` to `double`.  C++ applies it to
`input(a, b)` in `input(a, b) > threshold`, because `threshold` is a
`const double`.  `δ` is the type of the values of `double`.  The values `0` and
`1` that `Binarize` stores convert exactly, whatever the arithmetic type `T`. -/
structure ToDouble (α δ : Type) [Zero α] [One α] [Zero δ] [One δ] where
  conv : α → δ
  conv_zero : conv 0 = 0
  conv_one : conv 1 = 1

/-- Number of low bits an integer magnitude `a` loses to fit the 53-bit
significand of a `double`: how often `a` is halved until it is below `2^53`. -/
def excessBits : Nat → Nat → Nat
  | 0, _ => 0
  | fuel + 1, a => if a < 2 ^ 53 then 0 else excessBits fuel (a / 2) + 1

/-- Value of `(double) n` for a 64-bit integer `n`: `n` itself when
`|n| < 2^53`, and otherwise `|n|` rounded to 53 significant bits, to nearest and
ties to even, with the sign of `n`.  The result is an integer. -/
def roundToDouble (n : Int) : Int :=
  if n.natAbs < 2 ^ 53 then n
  else
    let e := excessBits 64 n.natAbs
    let q := n.natAbs / 2 ^ e
    let r := n.natAbs % 2 ^ e
    let q' := if 2 ^ (e - 1) < r ∨ (r = 2 ^ (e - 1) ∧ q % 2 = 1) then q + 1 else q
    Int.sign n * ((q' * 2 ^ e : Nat) : Int)

/-- Conversion for `T = long long`, the elements being integers. -/
def longLongToDouble : ToDouble Int ℚ :=
  ⟨fun n => ((roundToDouble n : Int) : ℚ), Int.cast_zero, Int.cast_one⟩

/-- Conversion for `T = arma::uword` (a 64-bit unsigned integer), the elements
being natural numbers. -/
def uwordToDouble : ToDouble Nat ℚ :=
  ⟨fun n => ((roundToDouble (n : Int) : Int) : ℚ), Int.cast_zero, Int.cast_one⟩

section Binarize

variable {α δ : Type} [Zero α] [One α] [Zero δ] [One δ] [LT δ]
  [DecidableRel (fun a b : δ => a < b)]

/-- Body shared by the in-place loops: `if (input(a, b) > threshold)
input(a, b) = 1; else input(a, b) = 0;`, the element being converted to
`double` for the comparison. -/
def binarizeAt (cv : ToDouble α δ) (threshold : δ) (input : Mat α) (a b : Nat) :
    Except IndexError (Mat α) :=
  match input.at a b with
  | .error e => .error e
  | .ok x => if cv.conv x > threshold then input.set a b 1 else input.set a b 0

/-- Body shared by the copying loops: `if (input(a, b) > threshold)
output(a, b) = 1; else output(a, b) = 0;`, the element being converted to
`double` for the comparison. -/
def binarizeInto (cv : ToDouble α δ) (threshold : δ) (input output : Mat α) (a b : Nat) :
    Except IndexError (Mat α) :=
  match input.at a b with
  | .error e => .error e
  | .ok x => if cv.conv x > threshold then output.set a b 1 else output.set a b 0

/-- Overload `Binarize(input, threshold, dimension)`, binarize.hpp lines 34-46. -/
def Binarize_dimension (cv : ToDouble α δ) (input : Mat α) (threshold : δ) (dimension : Nat) :
    Except IndexError (Mat α) :=
  forLoop (fun m i => binarizeAt cv threshold m dimension i) input.n_cols input

/-- Overload `Binarize(input, threshold)`, binarize.hpp lines 65-79.  The outer counter
`i` runs below `n_cols`, the inner counter `j` below `n_rows`, and the element
accessed is `input(i, j)`. -/
def Binarize (cv : ToDouble α δ) (input : Mat α) (threshold : δ) : Except IndexError (Mat α) :=
  forLoop (fun m i =>
    forLoop (fun m' j => binarizeAt cv threshold m' i j) input.n_rows m) input.n_cols input

/-- Armadillo `output.copy_size(input)`: `output` takes the dimensions of `input`.  When
the element count is unchanged Armadillo keeps the buffer; otherwise the buffer
is reallocated and its contents are unspecified, given here by `fresh`. -/
def Mat.copy_size (output input : Mat α) (fresh : Nat → α) : Mat α :=
  if h : output.mem.length = input.n_rows * input.n_cols then
    { n_rows := input.n_rows, n_cols := input.n_cols, mem := output.mem, size_eq := h }
  else
    { n_rows := input.n_rows
      n_cols := input.n_cols
      mem := (List.range (input.n_rows * input.n_cols)).map fresh
      size_eq := by simp }

/-- Overload `Binarize(input, output, threshold)`, binarize.hpp lines 100-117. -/
def Binarize_output (cv : ToDouble α δ) (input output : Mat α) (threshold : δ)
    (fresh : Nat → α) : Except IndexError (Mat α) :=
  forLoop (fun out i =>
    forLoop (fun out' j => binarizeInto cv threshold input out' i j) input.n_rows out)
    input.n_cols (output.copy_size input fresh)

/-- Overload `Binarize(input, output, threshold, dimension)`, binarize.hpp lines
141-156.  The first statement is `output(input);`: `operator()` applied to
`output` with a matrix argument, which in Armadillo builds a lazy view of the
elements of `output` indexed by `input` (and exists only for an index-typed
argument).  The view is discarded, so the statement reads and writes nothing:
`output` enters the loop with the dimensions and contents it had before the
call. -/
def Binarize_output_dimension (cv : ToDouble α δ) (input output : Mat α) (threshold : δ)
    (dimension : Nat) : Except IndexError (Mat α) :=
  forLoop (fun out i => binarizeInto cv threshold input out dimension i) input.n_cols output

end Binarize


/-! ## `HoeffdingForest`

`hoeffding_forest.hpp` declares the class; its member functions are defined in
`hoeffding_forest_impl.hpp`, which is not part of the sources at hand.  The
state record below follows the private members of the class declaration; the
operations follow the specification of the ensemble coordinator. -/

/-- Type tag of one dimension of the dataset descriptor. -/
inductive DimType where
  | numeric
  | categorical (cardinality : Nat)
deriving DecidableEq, Repr

/-- Dataset descriptor `data::DatasetInfo`: the ordered per-dimension type tags. -/
structure DatasetInfo where
  types : List DimType
deriving DecidableEq, Repr

/-- Dimension count `D` of the descriptor. -/
def DatasetInfo.D (info : DatasetInfo) : Nat := info.types.length

/-- Errors surfaced by the coordinator. -/
inductive ForestError where
  | ConfigurationError
  | DimensionMismatchError
  | LabelRangeError
deriving DecidableEq, Repr

/-- Modelled from the spec: the Streaming Tree Learner (the template parameter
`HoeffdingTreeType`, defined outside these sources), by the contract the
coordinator consumes: construction from the class count and a view of the
descriptor restricted to the member's dimensions, incremental training, and
classification of a projected vector to a label. -/
structure TreeLearner (σ feat : Type) where
  init : Nat → List DimType → σ
  train : σ → List feat → Nat → σ
  classify : σ → List feat → Nat

/-- Modelled from the spec: the Random Source, a seedable generator threaded
explicitly through construction and training.  The seed fixes the sequence
`stream` of raw draws; `pos` is the number of draws consumed. -/
structure RandomSource where
  stream : Nat → Nat
  pos : Nat

/-- One raw draw, advancing the generator. -/
def RandomSource.next (g : RandomSource) : Nat × RandomSource :=
  (g.stream g.pos, { g with pos := g.pos + 1 })

/-- Modelled from the spec: the configuration left open by the interface: the
subset size `k` as a function of `D` and the weight of a dimension as a
function of its usage count. -/
structure ForestConfig where
  subsetSize : Nat → Nat
  weight : Nat → Nat

/-- State of the coordinator: the private members of `class HoeffdingForest`
(hoeffding_forest.hpp lines 65-73). -/
structure HoeffdingForest (σ : Type) where
  trees : List σ
  dimensions : List (List Nat)
  dimensionCounts : List Nat
  info : DatasetInfo
  ownsInfo : Bool
  numClasses : Nat

/-- Accessor `NumTrees()`, hoeffding_forest.hpp line 59: `return trees.size();`. -/
def HoeffdingForest.NumTrees {σ : Type} (f : HoeffdingForest σ) : Nat := f.trees.length

/-- Modelled from the spec: one weighted pick among the remaining candidates.
The draw `u` walks the cumulative weights; the last candidate takes whatever
remains.  The result is a position in the weight list. -/
def pickIndex : List Nat → Nat → Nat
  | [], _ => 0
  | [_], _ => 0
  | w :: w' :: ws, u => if u < w then 0 else pickIndex (w' :: ws) (u - w) + 1

/-- Modelled from the spec: weighted sampling without replacement of `k`
dimensions out of `candidates`, the weight of a candidate being
`weight (usage count)`; chosen dimensions are removed from the candidates.
Returns the chosen dimensions in the order drawn. -/
def sampleWithoutReplacement (weight : Nat → Nat) (counts : List Nat) :
    Nat → List Nat → RandomSource → List Nat × RandomSource
  | 0, _, g => ([], g)
  | _ + 1, [], g => ([], g)
  | k + 1, c :: cs, g =>
    let weights := (c :: cs).map (fun d => weight (counts.getD d 0))
    let draw := g.next
    let idx := pickIndex weights (draw.1 % weights.sum)
    let chosen := (c :: cs).getD idx c
    let rest := sampleWithoutReplacement weight counts k ((c :: cs).eraseIdx idx) draw.2
    (chosen :: rest.1, rest.2)

/-- Increment the usage counter once for every dimension of `subset`. -/
def bumpCounts (counts : List Nat) (subset : List Nat) : List Nat :=
  subset.foldl (fun cs d => cs.set d (cs.getD d 0 + 1)) counts

/-- Modelled from the spec: the Dimension Selector (section 4.1).  Given `D`,
the subset size `k` and the usage counter it produces one subset and the
updated counter; with `k >= D` the subset is all `D` dimensions; it fails with
`ConfigurationError` when `k == 0` or `D == 0`. -/
def selectDimensions (weight : Nat → Nat) (D k : Nat) (counts : List Nat) (g : RandomSource) :
    Except ForestError (List Nat × List Nat × RandomSource) :=
  if k = 0 ∨ D = 0 then .error .ConfigurationError
  else if D ≤ k then .ok (List.range D, bumpCounts counts (List.range D), g)
  else
    let r := sampleWithoutReplacement weight counts k (List.range D) g
    .ok (r.1, bumpCounts counts r.1, r.2)

/-- Projection of a point onto a dimension subset, in subset order. -/
def project {feat : Type} (point : List feat) (dims : List Nat) : List feat :=
  dims.filterMap (fun d => point[d]?)

/-- Modelled from the spec: construction form (a) of section 4.5,
`HoeffdingForest(forestSize, numClasses, info)`, whose definition is in the
absent `hoeffding_forest_impl.hpp`.  An invalid forest size or class count is a
`ConfigurationError`; otherwise `forestSize` members are built one after the
other, each with the subset the Dimension Selector assigns and a learner built
from the class count and the descriptor restricted to that subset.  The
descriptor is borrowed. -/
def HoeffdingForest.new {σ feat : Type} (L : TreeLearner σ feat) (cfg : ForestConfig)
    (forestSize numClasses : Nat) (info : DatasetInfo) (g : RandomSource) :
    Except ForestError (HoeffdingForest σ × RandomSource) :=
  if forestSize = 0 ∨ numClasses < 2 then .error .ConfigurationError
  else
    forLoop (fun (st : HoeffdingForest σ × RandomSource) _ =>
        match selectDimensions cfg.weight info.D (cfg.subsetSize info.D)
            st.1.dimensionCounts st.2 with
        | .error e => .error e
        | .ok (dims, counts, g') =>
          .ok ({ st.1 with
                 trees := st.1.trees ++ [L.init numClasses (project info.types dims)]
                 dimensions := st.1.dimensions ++ [dims]
                 dimensionCounts := counts }, g'))
      forestSize
      ({ trees := [], dimensions := [], dimensionCounts := List.replicate info.D 0,
         info := info, ownsInfo := false, numClasses := numClasses }, g)

/-- Train one member `count` times on the same projected vector and label. -/
def trainTimes {σ feat : Type} (L : TreeLearner σ feat) (v : List feat) (label : Nat) :
    Nat → σ → σ
  | 0, s => s
  | n + 1, s => L.train (trainTimes L v label n s) v label

/-- Modelled from the spec: the member loop of `Train` (sections 4.2 and 4.3):
for each member in order, the Bagging Driver draws its replication count from
the random source, the point is projected onto the member's subset and the
member trains that many times. -/
def trainMembers {σ feat : Type} (L : TreeLearner σ feat) (point : List feat) (label : Nat) :
    List σ → List (List Nat) → RandomSource → List σ × RandomSource
  | t :: ts, d :: ds, g =>
    let draw := g.next
    let rest := trainMembers L point label ts ds draw.2
    (trainTimes L (project point d) label draw.1 t :: rest.1, rest.2)
  | ts, _, g => (ts, g)

/-- Modelled from the spec: `Train(point, label)` (sections 4.3 and 7), whose
definition is in the absent `hoeffding_forest_impl.hpp`.  The call reports its
outcome together with the coordinator and random source it leaves behind.
Both validations come before any member is touched; the label check is the
first of the two, as the specification lists them. -/
def HoeffdingForest.Train {σ feat : Type} (L : TreeLearner σ feat) (f : HoeffdingForest σ)
    (point : List feat) (label : Nat) (g : RandomSource) :
    Except ForestError Unit × HoeffdingForest σ × RandomSource :=
  if f.numClasses ≤ label then (.error .LabelRangeError, f, g)
  else if point.length ≠ f.info.D then (.error .DimensionMismatchError, f, g)
  else
    let r := trainMembers L point label f.trees f.dimensions g
    (.ok (), { f with trees := r.1 }, r.2)

/-- Top label of every member on its projection of the point. -/
def memberLabels {σ feat : Type} (L : TreeLearner σ feat) (f : HoeffdingForest σ)
    (point : List feat) : List Nat :=
  List.zipWith (fun t d => L.classify t (project point d)) f.trees f.dimensions

/-- Number of members voting for label `l`. -/
def voteCount (votes : List Nat) (l : Nat) : Nat := votes.count l

/-- Label `b` is preferred to label `a`: more votes, or as many votes and a
lower index. -/
def beats (votes : List Nat) (b a : Nat) : Bool :=
  voteCount votes a < voteCount votes b ||
    (voteCount votes a == voteCount votes b && decide (b < a))

/-- Modelled from the spec: plurality aggregation with ties broken by the
lowest label index (section 4.4): starting from label `0`, every vote cast is
compared with the best label so far. -/
def plurality (votes : List Nat) : Nat :=
  votes.foldl (fun best l => if beats votes l best then l else best) 0

/-- Modelled from the spec: `Classify(point) -> label` (section 4.4), whose
definition is in the absent `hoeffding_forest_impl.hpp`. -/
def HoeffdingForest.Classify {σ feat : Type} (L : TreeLearner σ feat) (f : HoeffdingForest σ)
    (point : List feat) : Except ForestError Nat :=
  if point.length ≠ f.info.D then .error .DimensionMismatchError
  else .ok (plurality (memberLabels L f point))

/-! ## Concrete inputs -/

/-- The 1 x 2 integer matrix `[3 -1]`. -/
def wide : Mat Int := ⟨1, 2, [3, -1], rfl⟩

/-- The 2 x 1 integer matrix with column `(5, -2)`. -/
def tall : Mat Int := ⟨2, 1, [5, -2], rfl⟩

/-- The 2 x 3 integer matrix with columns `(1, 2)`, `(3, 4)`, `(5, 6)`. -/
def twoByThree : Mat Int := ⟨2, 3, [1, 2, 3, 4, 5, 6], rfl⟩

/-- The 2 x 2 integer matrix with columns `(4, -3)`, `(0, 9)`. -/
def square2 : Mat Int := ⟨2, 2, [4, -3, 0, 9], rfl⟩

/-- The empty integer matrix, a default-constructed `arma::Mat`. -/
def emptyMat : Mat Int := ⟨0, 0, [], rfl⟩

/-- The 1 x 1 unsigned matrix `[1]`. -/
def one1 : Mat Nat := ⟨1, 1, [1], rfl⟩

/-- The empty unsigned matrix, a default-constructed `arma::Mat<arma::uword>`. -/
def emptyU : Mat Nat := ⟨0, 0, [], rfl⟩

/-- The 2 x 2 unsigned matrix with columns `(4, 3)`, `(0, 9)`. -/
def squareU : Mat Nat := ⟨2, 2, [4, 3, 0, 9], rfl⟩

/-- The 2 x 2 unsigned matrix of zeros. -/
def zerosU : Mat Nat := ⟨2, 2, [0, 0, 0, 0], rfl⟩

/-- The 1 x 2 integer matrix `[2^53 + 1, 2^53 + 2]`. -/
def bigRow : Mat Int := ⟨1, 2, [9007199254740993, 9007199254740994], rfl⟩

/-- The 1 x 1 integer matrix `[2]`. -/
def two1 : Mat Int := ⟨1, 1, [2], rfl⟩

/-- A toy learner whose state is the list of labels it was trained on and
whose top label is the last of them. -/
def lastLabelLearner : TreeLearner (List Nat) Int where
  init := fun _ _ => []
  train := fun s _ label => label :: s
  classify := fun s _ => s.headD 0

/-- A descriptor with four numeric dimensions. -/
def fourNumeric : DatasetInfo := ⟨[.numeric, .numeric, .numeric, .numeric]⟩

/-- Subsets of two dimensions, weight `12 / (1 + count)`. -/
def twoOfD : ForestConfig := ⟨fun _ => 2, fun c => 12 / (1 + c)⟩

/-- A random source whose raw draws are `7, 8, 9, ...`. -/
def countingSource : RandomSource := ⟨fun n => n + 7, 0⟩

/-- A forest of three members over `fourNumeric` with two classes. -/
def smallForest : HoeffdingForest (List Nat) :=
  { trees := [[1], [0], [1]], dimensions := [[0, 1], [2, 3], [1, 3]],
    dimensionCounts := [1, 2, 1, 2], info := fourNumeric, ownsInfo := false, numClasses := 2 }

/-! ## Lemmas on loops and element access -/

/-- Invariant rule for `forLoop`: an invariant that holds initially and is
carried by every iteration (which must succeed) holds at the end, and the loop
succeeds. -/
theorem forLoop_inv {σ ε : Type} (body : σ → Nat → Except ε σ) (P : Nat → σ → Prop)
    (n : Nat) (s : σ) (h0 : P 0 s)
    (hstep : ∀ i t, i < n → P i t → ∃ t', body t i = .ok t' ∧ P (i + 1) t') :
    ∃ t, forLoop body n s = .ok t ∧ P n t := by
  induction n with
  | zero => exact ⟨s, rfl, h0⟩
  | succ k ih =>
    obtain ⟨t, ht, hP⟩ := ih (fun i t hi => hstep i t (Nat.lt_succ_of_lt hi))
    obtain ⟨t', ht', hP'⟩ := hstep k t (Nat.lt_succ_self k) hP
    exact ⟨t', by simp [forLoop, ht, ht'], hP'⟩

/-- Distinct in-range positions have distinct column-major offsets. -/
theorem idx_ne {n r c r' c' : Nat} (hr : r < n) (hr' : r' < n)
    (h : ¬ (r' = r ∧ c' = c)) : r + c * n ≠ r' + c' * n := by
  intro he
  apply h
  have h1 : (r + c * n) % n = (r' + c' * n) % n := by rw [he]
  rw [Nat.add_mul_mod_self_right, Nat.add_mul_mod_self_right,
    Nat.mod_eq_of_lt hr, Nat.mod_eq_of_lt hr'] at h1
  subst h1
  refine ⟨rfl, ?_⟩
  have h2 : c * n = c' * n := Nat.add_left_cancel he
  exact (Nat.eq_of_mul_eq_mul_right (Nat.lt_of_le_of_lt (Nat.zero_le _) hr) h2).symm

theorem Mat.at_in_range {α : Type} (m : Mat α) {r c : Nat}
    (h : r < m.n_rows ∧ c < m.n_cols) : ∃ x, m.at r c = .ok x := by
  unfold Mat.at
  rw [dif_pos h]
  exact ⟨_, rfl⟩

/-- Effect of a checked write at an in-range position. -/
theorem Mat.set_spec {α : Type} (m : Mat α) (r c : Nat) (v : α)
    (h : r < m.n_rows ∧ c < m.n_cols) :
    ∃ m', m.set r c v = .ok m' ∧ m'.n_rows = m.n_rows ∧ m'.n_cols = m.n_cols ∧
      m'.at r c = .ok v ∧
      ∀ r' c', ¬ (r' = r ∧ c' = c) → m'.at r' c' = m.at r' c' := by
  refine ⟨{ n_rows := m.n_rows, n_cols := m.n_cols, mem := m.mem.set (r + c * m.n_rows) v,
            size_eq := by rw [List.length_set]; exact m.size_eq },
    by unfold Mat.set; rw [if_pos h], rfl, rfl, ?_, ?_⟩
  · unfold Mat.at
    simp only [dif_pos h]
    simp
  · intro r' c' hne
    unfold Mat.at
    by_cases h' : r' < m.n_rows ∧ c' < m.n_cols
    · simp only [dif_pos h']
      have := idx_ne h.1 h'.1 hne
      simp [List.getElem_set_ne this]
    · simp only [dif_neg h']

section BinarizeLemmas

variable {α δ : Type} [Zero α] [One α] [Zero δ] [One δ] [LT δ]
  [DecidableRel (fun a b : δ => a < b)]

/-- Effect of one copying loop body at a position in range of both matrices. -/
theorem binarizeInto_spec (cv : ToDouble α δ) (threshold : δ) (input output : Mat α) (a b : Nat)
    (hin : a < input.n_rows ∧ b < input.n_cols)
    (hout : a < output.n_rows ∧ b < output.n_cols) :
    ∃ out, binarizeInto cv threshold input output a b = .ok out ∧
      out.n_rows = output.n_rows ∧ out.n_cols = output.n_cols ∧
      (∀ x, input.at a b = .ok x → out.at a b = .ok (if threshold < cv.conv x then 1 else 0)) ∧
      ∀ r c, ¬ (r = a ∧ c = b) → out.at r c = output.at r c := by
  obtain ⟨x, hx⟩ := input.at_in_range hin
  unfold binarizeInto
  rw [hx]
  by_cases hlt : threshold < cv.conv x
  · obtain ⟨out, h1, h2, h3, h4, h5⟩ := output.set_spec a b 1 hout
    refine ⟨out, by simp [hlt, h1], h2, h3, ?_, h5⟩
    intro y hy
    cases hy
    simp [hlt, h4]
  · obtain ⟨out, h1, h2, h3, h4, h5⟩ := output.set_spec a b 0 hout
    refine ⟨out, by simp [hlt, h1], h2, h3, ?_, h5⟩
    intro y hy
    cases hy
    simp [hlt, h4]

/-- Effect of one in-place loop body at a position in range. -/
theorem binarizeAt_spec (cv : ToDouble α δ) (threshold : δ) (input : Mat α) (a b : Nat)
    (hin : a < input.n_rows ∧ b < input.n_cols) :
    ∃ out, binarizeAt cv threshold input a b = .ok out ∧
      out.n_rows = input.n_rows ∧ out.n_cols = input.n_cols ∧
      (∀ x, input.at a b = .ok x → out.at a b = .ok (if threshold < cv.conv x then 1 else 0)) ∧
      ∀ r c, ¬ (r = a ∧ c = b) → out.at r c = input.at r c :=
  binarizeInto_spec cv threshold input input a b hin hin

/-- Full effect of the in-place single-dimension overload on a valid row. -/
theorem Binarize_dimension_spec (cv : ToDouble α δ) (input : Mat α) (threshold : δ) (dimension : Nat)
    (hd : dimension < input.n_rows) :
    ∃ out, Binarize_dimension cv input threshold dimension = .ok out ∧
      out.n_rows = input.n_rows ∧ out.n_cols = input.n_cols ∧
      (∀ c, c < input.n_cols → ∀ x, input.at dimension c = .ok x →
        out.at dimension c = .ok (if threshold < cv.conv x then 1 else 0)) ∧
      ∀ r c, r ≠ dimension → out.at r c = input.at r c := by
  have key := forLoop_inv (fun m i => binarizeAt cv threshold m dimension i)
    (fun i m => m.n_rows = input.n_rows ∧ m.n_cols = input.n_cols ∧
      (∀ c, c < i → ∀ x, input.at dimension c = .ok x →
        m.at dimension c = .ok (if threshold < cv.conv x then 1 else 0)) ∧
      ∀ r c, ¬ (r = dimension ∧ c < i) → m.at r c = input.at r c)
    input.n_cols input
    ⟨rfl, rfl, fun c hc => absurd hc (Nat.not_lt_zero c), fun _ _ _ => rfl⟩
    (by
      intro i m hi ⟨hr, hc, hdone, hrest⟩
      obtain ⟨out, h1, h2, h3, h4, h5⟩ :=
        binarizeAt_spec cv threshold m dimension i ⟨by rw [hr]; exact hd, by rw [hc]; exact hi⟩
      refine ⟨out, h1, h2.trans hr, h3.trans hc, ?_, ?_⟩
      · intro c hci x hx
        by_cases hce : c = i
        · subst hce
          apply h4
          rw [hrest dimension c (fun h => Nat.lt_irrefl c h.2)]
          exact hx
        · rw [h5 dimension c (fun h => hce h.2)]
          exact hdone c (by omega) x hx
      · intro r c hrc
        rw [h5 r c (fun h => hrc ⟨h.1, by omega⟩)]
        exact hrest r c (fun h => hrc ⟨h.1, by omega⟩))
  obtain ⟨out, h1, h2, h3, h4, h5⟩ := key
  exact ⟨out, h1, h2, h3, h4, fun r c hr => h5 r c (fun h => hr h.1)⟩

end BinarizeLemmas

/-! ## `HoeffdingForest`: construction -/

theorem getD_mem_of_default_mem (l : List Nat) (i d : Nat) (hd : d ∈ l) : l.getD i d ∈ l := by
  rw [List.getD_eq_getElem?_getD]
  cases h : l[i]? with
  | none => simpa using hd
  | some x => simpa using List.getElem?_mem h

/-- Every dimension drawn by the sampler is one of the candidates. -/
theorem sampleWithoutReplacement_mem (weight : Nat → Nat) (counts : List Nat) :
    ∀ (k : Nat) (cands : List Nat) (g : RandomSource) (d : Nat),
      d ∈ (sampleWithoutReplacement weight counts k cands g).1 → d ∈ cands := by
  intro k
  induction k with
  | zero =>
    intro cands g d hd
    simp [sampleWithoutReplacement] at hd
  | succ k ih =>
    intro cands g d hd
    cases cands with
    | nil => simp [sampleWithoutReplacement] at hd
    | cons c cs =>
      simp only [sampleWithoutReplacement, List.mem_cons] at hd
      rcases hd with hd | hd
      · rw [hd]
        exact getD_mem_of_default_mem (c :: cs) _ c (List.mem_cons_self c cs)
      · exact List.mem_of_mem_eraseIdx (ih _ _ d hd)

/-- Sampling at least one dimension from a non-empty candidate list yields a
non-empty subset. -/
theorem sampleWithoutReplacement_ne_nil (weight : Nat → Nat) (counts : List Nat)
    (k : Nat) (cands : List Nat) (g : RandomSource) (hk : 0 < k) (hc : cands ≠ []) :
    (sampleWithoutReplacement weight counts k cands g).1 ≠ [] := by
  cases k with
  | zero => exact absurd hk (Nat.lt_irrefl 0)
  | succ k =>
    cases cands with
    | nil => exact absurd rfl hc
    | cons c cs => simp [sampleWithoutReplacement]

/-- The Dimension Selector succeeds for `k > 0` and `D > 0` and returns a
non-empty subset of `[0, D)`. -/
theorem selectDimensions_spec (weight : Nat → Nat) (D k : Nat) (counts : List Nat)
    (g : RandomSource) (hk : 0 < k) (hD : 0 < D) :
    ∃ dims counts' g', selectDimensions weight D k counts g = .ok (dims, counts', g') ∧
      dims ≠ [] ∧ ∀ d ∈ dims, d < D := by
  have hne : List.range D ≠ [] := by
    intro h
    have := congrArg List.length h
    simp at this
    omega
  unfold selectDimensions
  rw [if_neg (by omega)]
  by_cases hDk : D ≤ k
  · rw [if_pos hDk]
    exact ⟨_, _, _, rfl, hne, fun d hd => List.mem_range.mp hd⟩
  · rw [if_neg hDk]
    refine ⟨_, _, _, rfl, sampleWithoutReplacement_ne_nil weight counts k _ g hk hne, ?_⟩
    intro d hd
    exact List.mem_range.mp (sampleWithoutReplacement_mem weight counts k _ g d hd)

/-! ## `HoeffdingForest`: plurality vote -/

theorem beats_iff (votes : List Nat) (b a : Nat) :
    beats votes b a = true ↔
      voteCount votes a < voteCount votes b ∨
        (voteCount votes a = voteCount votes b ∧ b < a) := by
  simp [beats]

/-- The scan keeps a label that no scanned label and not the initial label
beats, and that label is the initial one or a scanned one. -/
theorem scan_best (votes : List Nat) :
    ∀ (xs : List Nat) (init : Nat),
      beats votes init (xs.foldl (fun best l => if beats votes l best then l else best) init)
          = false ∧
      (∀ l ∈ xs,
        beats votes l (xs.foldl (fun best l => if beats votes l best then l else best) init)
          = false) ∧
      ((xs.foldl (fun best l => if beats votes l best then l else best) init) = init ∨
        (xs.foldl (fun best l => if beats votes l best then l else best) init) ∈ xs) := by
  intro xs
  induction xs with
  | nil =>
    intro init
    refine ⟨?_, fun l hl => absurd hl (List.not_mem_nil l), Or.inl rfl⟩
    simp [beats]
  | cons x xs ih =>
    intro init
    simp only [List.foldl_cons]
    obtain ⟨h1, h2, h3⟩ := ih (if beats votes x init then x else init)
    generalize hw : List.foldl (fun best l => if beats votes l best then l else best)
      (if beats votes x init then x else init) xs = w at h1 h2 h3
    have hb1 := beats_iff votes init w
    have hb2 := beats_iff votes x w
    have hb3 := beats_iff votes x init
    by_cases hx : beats votes x init = true
    · rw [if_pos hx] at h1 h3
      have hxw : ¬ (beats votes x w = true) := by simp [h1]
      refine ⟨?_, ?_, ?_⟩
      · have : ¬ (beats votes init w = true) := by
          rw [hb1]
          rw [hb2] at hxw
          rw [hb3] at hx
          omega
        simpa using this
      · intro l hl
        rcases List.mem_cons.mp hl with hl | hl
        · rw [hl]; exact h1
        · exact h2 l hl
      · rcases h3 with h3 | h3
        · exact Or.inr (by rw [h3]; exact List.mem_cons_self x xs)
        · exact Or.inr (List.mem_cons_of_mem x h3)
    · rw [if_neg hx] at h1 h3
      have hiw : ¬ (beats votes init w = true) := by simp [h1]
      refine ⟨h1, ?_, ?_⟩
      · intro l hl
        rcases List.mem_cons.mp hl with hl | hl
        · rw [hl]
          have : ¬ (beats votes x w = true) := by
            rw [hb2]
            rw [hb1] at hiw
            rw [hb3] at hx
            omega
          simpa using this
        · exact h2 l hl
      · rcases h3 with h3 | h3
        · exact Or.inl h3
        · exact Or.inr (List.mem_cons_of_mem x h3)

/-- The plurality label has at least as many votes as any label, and is the
lowest label among those with as many votes. -/
theorem plurality_spec (votes : List Nat) (l : Nat) :
    voteCount votes l ≤ voteCount votes (plurality votes) ∧
      (voteCount votes l = voteCount votes (plurality votes) → plurality votes ≤ l) := by
  obtain ⟨h1, h2, h3⟩ := scan_best votes votes 0
  change beats votes 0 (plurality votes) = false at h1
  change ∀ l ∈ votes, beats votes l (plurality votes) = false at h2
  change plurality votes = 0 ∨ plurality votes ∈ votes at h3
  by_cases hl : l ∈ votes
  · have hb : ¬ (beats votes l (plurality votes) = true) := by simp [h2 l hl]
    rw [beats_iff] at hb
    omega
  · have hz : voteCount votes l = 0 := List.count_eq_zero.mpr hl
    refine ⟨by omega, fun he => ?_⟩
    rcases h3 with h3 | h3
    · omega
    · have : 0 < voteCount votes (plurality votes) := List.count_pos_iff.mpr h3
      omega

/-! ## `Binarize`: the in-place single-dimension overload -/

/-- C1 as stated fails for `T = long long`: with the threshold `2^53` the entry
`2^53 + 1` of the 1 x 2 matrix `bigRow` is greater than the threshold, and the
call sets it to `0`, because it converts to the `double` `2^53`; the entry
`2^53 + 2` is set to `1`. -/
theorem Binarize_dimension_rounding_counterexample :
    Binarize_dimension longLongToDouble bigRow 9007199254740992 0
      = .ok ⟨1, 2, [0, 1], rfl⟩ ∧
    bigRow.at 0 0 = .ok 9007199254740993 ∧
    ((9007199254740993 : Int) : ℚ) > 9007199254740992 ∧
    (⟨1, 2, [0, 1], rfl⟩ : Mat Int).at 0 0 = .ok 0 ∧
    (⟨1, 2, [0, 1], rfl⟩ : Mat Int).at 0 0 ≠ .ok 1 := by
  refine ⟨by rfl, by rfl, by norm_num, by rfl, by simp [Mat.at]⟩

section OrderedClaims

variable {α δ : Type} [Zero α] [One α] [Zero δ] [One δ] [Preorder δ]
  [DecidableRel (fun a b : δ => a < b)]

/-- C1, amended: for every matrix and every `dimension < n_rows`, the in-place
single-dimension `Binarize` returns normally, and for every column `i` the
entry `(dimension, i)` of the result is `1` if the original entry, converted to
`double`, was greater than the threshold and `0` if the converted entry was less
than or equal to the threshold. -/
theorem Binarize_dimension_entries (cv : ToDouble α δ) (input : Mat α) (threshold : δ)
    (dimension : Nat) (hd : dimension < input.n_rows) :
    ∃ out, Binarize_dimension cv input threshold dimension = .ok out ∧
      ∀ i, i < input.n_cols → ∃ x, input.at dimension i = .ok x ∧
        (cv.conv x > threshold → out.at dimension i = .ok 1) ∧
        (cv.conv x ≤ threshold → out.at dimension i = .ok 0) := by
  obtain ⟨out, h1, _, _, h4, _⟩ := Binarize_dimension_spec cv input threshold dimension hd
  refine ⟨out, h1, fun i hi => ?_⟩
  obtain ⟨x, hx⟩ := input.at_in_range ⟨hd, hi⟩
  refine ⟨x, hx, fun hgt => ?_, fun hle => ?_⟩
  · rw [h4 i hi x hx, if_pos hgt]
  · rw [h4 i hi x hx, if_neg (not_lt_of_le hle)]

/-- C2: for every matrix and every `dimension < n_rows`, the in-place
single-dimension `Binarize` keeps the number of rows and of columns, and every
entry in a row other than `dimension` is the same after the call as before. -/
theorem Binarize_dimension_frame (cv : ToDouble α δ) (input : Mat α) (threshold : δ)
    (dimension : Nat) (hd : dimension < input.n_rows) :
    ∃ out, Binarize_dimension cv input threshold dimension = .ok out ∧
      out.n_rows = input.n_rows ∧ out.n_cols = input.n_cols ∧
      ∀ r c, r ≠ dimension → out.at r c = input.at r c := by
  obtain ⟨out, h1, h2, h3, _, h5⟩ := Binarize_dimension_spec cv input threshold dimension hd
  exact ⟨out, h1, h2, h3, h5⟩

end OrderedClaims

/-- Witness of the amended C1 on row 0 of the 2 x 2 matrix `square2`, whose
entries `4` and `0` take the two branches, with threshold 0. -/
theorem Binarize_dimension_entries_witness :
    0 < square2.n_rows ∧
    ∃ out, Binarize_dimension longLongToDouble square2 0 0 = .ok out ∧
      ∀ i, i < square2.n_cols → ∃ x, square2.at 0 i = .ok x ∧
        (longLongToDouble.conv x > 0 → out.at 0 i = .ok 1) ∧
        (longLongToDouble.conv x ≤ 0 → out.at 0 i = .ok 0) :=
  ⟨by decide, Binarize_dimension_entries longLongToDouble square2 0 0 (by decide)⟩

/-- Witness of C2 on row 1 of the 2 x 2 matrix `square2` with threshold 0. -/
theorem Binarize_dimension_frame_witness :
    1 < square2.n_rows ∧
    ∃ out, Binarize_dimension longLongToDouble square2 0 1 = .ok out ∧
      out.n_rows = square2.n_rows ∧ out.n_cols = square2.n_cols ∧
      ∀ r c, r ≠ 1 → out.at r c = square2.at r c :=
  ⟨by decide, Binarize_dimension_frame longLongToDouble square2 0 1 (by decide)⟩

/-! ## `Binarize`: the whole-matrix overloads -/

/-- C3: on the 2 x 3 matrix `twoByThree` the in-place whole-matrix `Binarize`
does not binarize every entry: its third outer iteration accesses
`input(2, 0)`, a row index out of range, and the call ends in the bounds-check
error. -/
theorem Binarize_twoByThree_fails :
    Binarize longLongToDouble twoByThree 0 = .error ⟨2, 0⟩ := by rfl

/-- C4: on the 2 x 1 input `tall` the copying whole-matrix `Binarize` produces
no output: after `copy_size` the second inner iteration accesses
`input(0, 1)`, a column index out of range, and the call ends in the
bounds-check error, whatever the reallocated buffer holds. -/
theorem Binarize_output_tall_fails (fresh : Nat → Int) :
    Binarize_output longLongToDouble tall emptyMat 0 fresh = .error ⟨0, 1⟩ := by rfl

/-- C5: the copying single-dimension `Binarize` does not copy `input` into
`output`.  With the empty `output` of the usage example the first write
`output(0, 0)` is out of range and the call ends in the bounds-check error;
with a 2 x 2 `output` of zeros, row 1 of the result is still zero and not row 1
of `input`. -/
theorem Binarize_output_dimension_no_copy :
    Binarize_output_dimension uwordToDouble one1 emptyU 0 0 = .error ⟨0, 0⟩ ∧
    Binarize_output_dimension uwordToDouble squareU zerosU 0 0
      = .ok ⟨2, 2, [1, 0, 0, 0], rfl⟩ ∧
    squareU.at 1 1 = .ok 9 := by
  refine ⟨by rfl, by rfl, by rfl⟩

/-- C10: on the 1 x 2 matrix `wide` both whole-matrix overloads issue the
access `(1, 0)`, whose row index is not below `n_rows = 1`, and reach the
error branch of the checked indexing. -/
theorem Binarize_whole_matrix_index_out_of_range (fresh : Nat → Int) :
    wide.n_rows = 1 ∧
    Binarize longLongToDouble wide 0 = .error ⟨1, 0⟩ ∧
    Binarize_output longLongToDouble wide emptyMat 0 fresh = .error ⟨1, 0⟩ := by
  refine ⟨by rfl, by rfl, by rfl⟩

/-- C7: for every forest size of at least one, class count of at least two and
descriptor with `D > 0` dimensions (and subset size `k > 0`), the constructor
succeeds and builds exactly `forestSize` members: `NumTrees()` is `forestSize`,
`dimensions` has `forestSize` entries, and every member's dimension subset is
non-empty and contains only indices below `D`. -/
theorem HoeffdingForest_new_members {σ feat : Type} (L : TreeLearner σ feat)
    (cfg : ForestConfig) (forestSize numClasses : Nat) (info : DatasetInfo)
    (g : RandomSource) (hF : 0 < forestSize) (hC : 2 ≤ numClasses) (hD : 0 < info.D)
    (hk : 0 < cfg.subsetSize info.D) :
    ∃ f g', HoeffdingForest.new L cfg forestSize numClasses info g = .ok (f, g') ∧
      f.NumTrees = forestSize ∧ f.dimensions.length = forestSize ∧
      ∀ dims ∈ f.dimensions, dims ≠ [] ∧ ∀ d ∈ dims, d < info.D := by
  unfold HoeffdingForest.new
  rw [if_neg (by omega)]
  have key := forLoop_inv
    (fun (st : HoeffdingForest σ × RandomSource) (_ : Nat) =>
        match selectDimensions cfg.weight info.D (cfg.subsetSize info.D)
            st.1.dimensionCounts st.2 with
        | .error e => (.error e : Except ForestError (HoeffdingForest σ × RandomSource))
        | .ok (dims, counts, g') =>
          .ok ({ st.1 with
                 trees := st.1.trees ++ [L.init numClasses (project info.types dims)]
                 dimensions := st.1.dimensions ++ [dims]
                 dimensionCounts := counts }, g'))
    (fun i st => st.1.trees.length = i ∧ st.1.dimensions.length = i ∧
      ∀ dims ∈ st.1.dimensions, dims ≠ [] ∧ ∀ d ∈ dims, d < info.D)
    forestSize
    ({ trees := [], dimensions := [], dimensionCounts := List.replicate info.D 0,
       info := info, ownsInfo := false, numClasses := numClasses }, g)
    ⟨rfl, rfl, fun dims hd => absurd hd (List.not_mem_nil dims)⟩
    (by
      intro i st _ ⟨ht, hdl, hsub⟩
      obtain ⟨dims, counts', g', hsel, hne, hlt⟩ :=
        selectDimensions_spec cfg.weight info.D (cfg.subsetSize info.D)
          st.1.dimensionCounts st.2 hk hD
      simp only [hsel]
      refine ⟨_, rfl, ?_, ?_, ?_⟩
      · simp [ht]
      · simp [hdl]
      · intro ds hds
        rcases List.mem_append.mp hds with h | h
        · exact hsub ds h
        · rw [List.mem_singleton.mp h]
          exact ⟨hne, hlt⟩)
  obtain ⟨st, h1, h2, h3, h4⟩ := key
  exact ⟨st.1, st.2, h1, h2, h3, h4⟩

/-- Witness of C7: three members, two classes, four numeric dimensions. -/
theorem HoeffdingForest_new_members_witness :
    (0 < 3 ∧ 2 ≤ 2 ∧ 0 < fourNumeric.D ∧ 0 < twoOfD.subsetSize fourNumeric.D) ∧
    ∃ f g', HoeffdingForest.new lastLabelLearner twoOfD 3 2 fourNumeric countingSource
        = .ok (f, g') ∧
      f.NumTrees = 3 ∧ f.dimensions.length = 3 ∧
      ∀ dims ∈ f.dimensions, dims ≠ [] ∧ ∀ d ∈ dims, d < fourNumeric.D :=
  ⟨by decide,
   HoeffdingForest_new_members lastLabelLearner twoOfD 3 2 fourNumeric countingSource
    (by decide) (by decide) (by decide) (by decide)⟩

/-- C8: for every forest and every point of length `D`, `Classify(point)`
returns a label `w` such that, `votes` being the list of the members' top
labels (member `t` with subset `d` votes `classify t` on the coordinates of
`point` that `d` lists, in the order of `d`), `w` occurs in `votes` at least as
often as every label, and is the lowest label among those occurring as often. -/
theorem Classify_plurality {σ feat : Type} (L : TreeLearner σ feat) (f : HoeffdingForest σ)
    (point : List feat) (votes : List Nat) (hlen : point.length = f.info.D)
    (hvotes : votes = List.zipWith
      (fun t d => L.classify t (List.filterMap (fun k => point[k]?) d))
      f.trees f.dimensions) :
    ∃ w, f.Classify L point = .ok w ∧
      (∀ l, List.count l votes ≤ List.count w votes) ∧
      ∀ l, List.count l votes = List.count w votes → w ≤ l := by
  have hml : memberLabels L f point = votes := by
    rw [hvotes]
    rfl
  refine ⟨plurality votes, ?_, fun l => (plurality_spec votes l).1,
    fun l => (plurality_spec votes l).2⟩
  unfold HoeffdingForest.Classify
  rw [if_neg (by simp [hlen]), hml]

/-- Witness of C8 on `smallForest` and a point of length four: the members of
`lastLabelLearner` vote `1`, `0`, `1`, and the label returned is `1`. -/
theorem Classify_plurality_witness :
    (([2, -1, 0, 5] : List Int).length = smallForest.info.D ∧
      [1, 0, 1] = List.zipWith
        (fun t d => lastLabelLearner.classify t
          (List.filterMap (fun k => ([2, -1, 0, 5] : List Int)[k]?) d))
        smallForest.trees smallForest.dimensions) ∧
    smallForest.Classify lastLabelLearner [2, -1, 0, 5] = .ok 1 ∧
    ∃ w, smallForest.Classify lastLabelLearner [2, -1, 0, 5] = .ok w ∧
      (∀ l, List.count l [1, 0, 1] ≤ List.count w [1, 0, 1]) ∧
      ∀ l, List.count l [1, 0, 1] = List.count w [1, 0, 1] → w ≤ l :=
  ⟨⟨by decide, by rfl⟩, by rfl,
   Classify_plurality lastLabelLearner smallForest [2, -1, 0, 5] [1, 0, 1] (by decide)
    (by rfl)⟩

/-- C9: `Train(point, label)` with `label >= numClasses` (in particular
`label == numClasses`) fails with `LabelRangeError`, and the coordinator it
leaves behind is the one it was called on: every member's state is unchanged. -/
theorem Train_label_out_of_range {σ feat : Type} (L : TreeLearner σ feat)
    (f : HoeffdingForest σ) (point : List feat) (label : Nat) (g : RandomSource)
    (hlabel : f.numClasses ≤ label) :
    (f.Train L point label g).1 = .error .LabelRangeError ∧
      (f.Train L point label g).2.1 = f ∧
      (f.Train L point label g).2.1.trees = f.trees := by
  unfold HoeffdingForest.Train
  rw [if_pos hlabel]
  exact ⟨rfl, rfl, rfl⟩

/-- Witness of C9: `smallForest` has two classes and is trained with label 2. -/
theorem Train_label_out_of_range_witness :
    smallForest.numClasses ≤ 2 ∧
    (smallForest.Train lastLabelLearner [2, -1, 0, 5] 2 countingSource).1
        = .error .LabelRangeError ∧
      (smallForest.Train lastLabelLearner [2, -1, 0, 5] 2 countingSource).2.1 = smallForest ∧
      (smallForest.Train lastLabelLearner [2, -1, 0, 5] 2 countingSource).2.1.trees
        = smallForest.trees :=
  ⟨by decide, Train_label_out_of_range lastLabelLearner smallForest [2, -1, 0, 5] 2
    countingSource (by decide)⟩

/-! ## `Binarize`: applying the single-dimension overload twice -/

/-- Two matrices of the same dimensions whose in-range entries agree are equal. -/
theorem Mat.ext_at {α : Type} (m m' : Mat α) (hr : m'.n_rows = m.n_rows)
    (hc : m'.n_cols = m.n_cols)
    (h : ∀ r c, r < m.n_rows → c < m.n_cols → m'.at r c = m.at r c) : m' = m := by
  obtain ⟨R, C, mem, hs⟩ := m
  obtain ⟨R', C', mem', hs'⟩ := m'
  simp only at hr hc
  subst hr hc
  have hmem : mem' = mem := by
    apply List.ext_getElem?
    intro k
    by_cases hk : k < R' * C'
    · have hRpos : 0 < R' := by
        rcases Nat.eq_zero_or_pos R' with h0 | h0
        · rw [h0, Nat.zero_mul] at hk
          exact absurd hk (Nat.not_lt_zero k)
        · exact h0
      have hrlt : k % R' < R' := Nat.mod_lt k hRpos
      have hclt : k / R' < C' := Nat.div_lt_of_lt_mul hk
      have hidx : k % R' + k / R' * R' = k := by
        rw [Nat.mul_comm]
        exact Nat.mod_add_div k R'
      have hat := h (k % R') (k / R') hrlt hclt
      unfold Mat.at at hat
      simp only [dif_pos (show k % R' < R' ∧ k / R' < C' from ⟨hrlt, hclt⟩)] at hat
      have hget := Except.ok.inj hat
      simp only [List.get_eq_getElem] at hget
      have h1 : mem'[k % R' + k / R' * R']? = mem[k % R' + k / R' * R']? := by
        rw [List.getElem?_eq_getElem (by rw [hidx, hs']; exact hk),
          List.getElem?_eq_getElem (by rw [hidx, hs]; exact hk), hget]
      rw [hidx] at h1
      exact h1
    · rw [List.getElem?_eq_none (by rw [hs']; omega),
        List.getElem?_eq_none (by rw [hs]; omega)]
  subst hmem
  rfl

/-- C11: for every matrix, every `dimension < n_rows` and every threshold with
`0 <= threshold < 1`, the in-place single-dimension `Binarize` returns a matrix
on which a second application returns the same matrix; and for some threshold
`t >= 1` and some matrix (the threshold `1` and the 1 x 1 matrix `[2]`) the
second application changes the result (from `[1]` to `[0]`). -/
theorem Binarize_dimension_idempotent {α δ : Type} [Zero α] [One α] [Zero δ] [One δ]
    [Preorder δ] [DecidableRel (fun a b : δ => a < b)]
    (cv : ToDouble α δ) (input : Mat α) (threshold : δ) (dimension : Nat)
    (hd : dimension < input.n_rows) (h0 : 0 ≤ threshold) (h1 : threshold < 1) :
    (∃ out, Binarize_dimension cv input threshold dimension = .ok out ∧
      Binarize_dimension cv out threshold dimension = .ok out) ∧
    (∃ (t : ℚ) (m once twice : Mat Int), 1 ≤ t ∧ 0 < m.n_rows ∧
      Binarize_dimension longLongToDouble m t 0 = .ok once ∧
      Binarize_dimension longLongToDouble once t 0 = .ok twice ∧ twice ≠ once) := by
  constructor
  · obtain ⟨out, e1, r1, c1, row1, _⟩ :=
      Binarize_dimension_spec cv input threshold dimension hd
    obtain ⟨out2, e2, r2, c2, row2, rest2⟩ :=
      Binarize_dimension_spec cv out threshold dimension (by rw [r1]; exact hd)
    refine ⟨out, e1, ?_⟩
    rw [e2]
    congr 1
    apply Mat.ext_at out out2 r2 c2
    intro r c hr hc
    by_cases hrd : r = dimension
    · subst hrd
      obtain ⟨x, hx⟩ := input.at_in_range ⟨hd, by rw [← c1]; exact hc⟩
      have hv := row1 c (by rw [← c1]; exact hc) x hx
      rw [row2 c hc _ hv, hv]
      by_cases hlt : threshold < cv.conv x
      · rw [if_pos hlt, cv.conv_one, if_pos h1]
      · rw [if_neg hlt, cv.conv_zero, if_neg (not_lt_of_le h0)]
    · exact rest2 r c hrd
  · exact ⟨1, two1, ⟨1, 1, [1], rfl⟩, ⟨1, 1, [0], rfl⟩, le_refl 1, by decide, by rfl, by rfl,
      by decide⟩

/-- Witness of C11 on row 0 of the 2 x 2 matrix `square2` with threshold 0. -/
theorem Binarize_dimension_idempotent_witness :
    (0 < square2.n_rows ∧ (0 : ℚ) ≤ 0 ∧ (0 : ℚ) < 1) ∧
    (∃ out, Binarize_dimension longLongToDouble square2 0 0 = .ok out ∧
      Binarize_dimension longLongToDouble out 0 0 = .ok out) ∧
    (∃ (t : ℚ) (m once twice : Mat Int), 1 ≤ t ∧ 0 < m.n_rows ∧
      Binarize_dimension longLongToDouble m t 0 = .ok once ∧
      Binarize_dimension longLongToDouble once t 0 = .ok twice ∧ twice ≠ once) :=
  ⟨⟨by decide, le_refl 0, by norm_num⟩,
   Binarize_dimension_idempotent longLongToDouble square2 0 0 (by decide) (le_refl 0)
    (by norm_num)⟩

end mlpack
